import Mathlib

/-!
Verification of the RSA / digital-signature core of the
`lovanbang999/digital-signature` repository.

The Python source (`backend/utils/math_utils.py`, `backend/utils/prime_utils.py`,
`backend/crypto/rsa.py`, `backend/signature/digital_signature.py`) is shallowly
embedded below.  Python integers are modelled by `Int`; Python's `%` and `//`
on integers are floor-mod and floor-division, i.e. `Int.fmod` and `Int.fdiv`;
Python's `>>` on non-negative integers is floor-division by a power of two.
Python `raise ValueError(msg)` is modelled by `Except PyValueError`, with one
constructor per distinct message raised by the source.
-/

namespace Backend

/-- The distinct `ValueError`s raised by the source, named as in the spec:
`NoModularInverse` is `mod_inverse`'s "Nghịch đảo modulo không tồn tại",
`OutOfRange` is `RSA.encrypt`'s "Plaintext phải < n", and `KeyNotSet` is the
"Chưa có private key/public key" error of `DigitalSignature.sign`/`verify`. -/
inductive PyValueError where
  | NoModularInverse
  | OutOfRange
  | KeyNotSet
  deriving Repr, DecidableEq

/-- Helper for the termination of the Euclidean recursions: the floor-mod
remainder is strictly smaller than the divisor in absolute value. -/
theorem fmod_natAbs_lt (a b : Int) (hb : b ≠ 0) : (a.fmod b).natAbs < b.natAbs := by
  rcases b with n | n
  · have hn : 0 < (Int.ofNat n : Int) := by
      rcases Nat.eq_zero_or_pos n with h | h
      · exact absurd (by simp [h]) hb
      · exact Int.ofNat_pos.mpr h
    have h1 := Int.fmod_nonneg' a hn
    have h2 := Int.fmod_lt_of_pos a hn
    omega
  · rcases a with m | m
    · rcases m with _ | m
      · simp [Int.fmod]
      · show (Int.subNatNat (m % (n + 1)) n).natAbs < n + 1
        rw [Int.subNatNat_eq_coe]
        have := Nat.mod_lt m (y := n + 1) (by omega)
        omega
    · show (-(Int.ofNat ((m + 1) % (n + 1)))).natAbs < n + 1
      rw [Int.natAbs_neg]
      simpa using Nat.mod_lt (m + 1) (y := n + 1) (by omega)

/-- `math_utils.gcd`: iterative Euclidean algorithm
(`while b != 0: a, b = b, a % b; return a`), written as the equivalent
tail recursion. -/
def gcd (a b : Int) : Int :=
  if h : b = 0 then a else gcd b (a.fmod b)
termination_by b.natAbs
decreasing_by exact fmod_natAbs_lt a b h

/-- `math_utils.extended_gcd`: returns `(g, x, y)` with `a*x + b*y = g`.
Base case `a = 0` yields `(b, 0, 1)`; otherwise recurse on `(b % a, a)` and
back-substitute `x = y1 - (b // a) * x1`, `y = x1`. -/
def extended_gcd (a b : Int) : Int × Int × Int :=
  if h : a = 0 then (b, 0, 1)
  else
    let r := extended_gcd (b.fmod a) a
    (r.1, r.2.2 - (b.fdiv a) * r.2.1, r.2.1)
termination_by a.natAbs
decreasing_by exact fmod_natAbs_lt b a h

/-- `math_utils.mod_inverse`: computes `extended_gcd(a, m)`, raises
`NoModularInverse` when the returned `gcd_val` is not `1`, otherwise returns
`(x % m + m) % m`. -/
def mod_inverse (a m : Int) : Except PyValueError Int :=
  let r := extended_gcd a m
  if r.1 ≠ 1 then .error .NoModularInverse
  else .ok (((r.2.1.fmod m) + m).fmod m)

/-- The `while exponent > 0` loop of `math_utils.power_mod`: square-and-multiply,
right to left.  `exponent >> 1` is floor-division by 2 (`Int.fdiv _ 2`). -/
def powerModLoop (modulus base exponent result : Int) : Int :=
  if h : 0 < exponent then
    let result' := if exponent.fmod 2 = 1 then (result * base).fmod modulus else result
    powerModLoop modulus ((base * base).fmod modulus) (exponent.fdiv 2) result'
  else result
termination_by exponent.toNat
decreasing_by
  rw [Int.fdiv_eq_ediv _ (by omega)]
  omega

/-- `math_utils.power_mod`: returns 0 when `modulus == 1`, otherwise reduces
`base` modulo `modulus` and runs the square-and-multiply loop starting from
`result = 1`.  (For `modulus == 0` the Python source raises
`ZeroDivisionError` at `base % modulus`; no caller ever passes 0.) -/
def power_mod (base exponent modulus : Int) : Int :=
  if modulus = 1 then 0
  else powerModLoop modulus (base.fmod modulus) exponent 1

/-- The `while d % 2 == 0` loop of `prime_utils.miller_rabin` that writes
`n - 1 = 2^r * d` with `d` odd: `r += 1; d //= 2` while `d` is even.
The source loop has no `0 < d` test; it is added only to make the recursion
well-founded, and agrees with the source on every reachable call
(`d` starts at `n - 1 ≥ 4` there, and stays positive). -/
def decompose (r : Nat) (d : Int) : Nat × Int :=
  if h : d.fmod 2 = 0 ∧ 0 < d then decompose (r + 1) (d.fdiv 2) else (r, d)
termination_by d.toNat
decreasing_by
  rw [Int.fdiv_eq_ediv _ (by omega)]
  omega

/-- The inner `for _ in range(r - 1)` loop of one Miller-Rabin round:
repeatedly square `x` modulo `n`; return `true` on `break` (some square equals
`n - 1`), `false` when the loop completes (the `for`-`else` branch, which makes
`miller_rabin` return `False`). -/
def mrInner (n : Int) : Nat → Int → Bool
  | 0, _ => false
  | k + 1, x =>
    let x' := power_mod x 2 n
    if x' = n - 1 then true else mrInner n k x'

/-- One round of `prime_utils.miller_rabin` for the drawn witness `a`:
`x = power_mod(a, d, n)`; the round passes immediately when `x ∈ {1, n-1}`,
otherwise it passes iff the squaring loop hits `n - 1`. -/
def mrRound (n d : Int) (r : Nat) (a : Int) : Bool :=
  let x := power_mod a d n
  if x = 1 ∨ x = n - 1 then true
  else mrInner n (r - 1) x

/-- `prime_utils.miller_rabin`.  The source draws `k` random witnesses with
`random.randrange(2, n - 1)` inside the round loop; the embedding is
parameterized by the list of drawn witnesses (one per round, so
`witnesses.length = k`). -/
def miller_rabin (n : Int) (witnesses : List Int) : Bool :=
  if n < 2 then false
  else if n = 2 ∨ n = 3 then true
  else if n.fmod 2 = 0 then false
  else
    let rd := decompose 0 (n - 1)
    witnesses.all (mrRound n rd.2 rd.1)

/-- The candidate built by one iteration of `prime_utils.generate_prime`:
`n = random.getrandbits(bits)` (so `n < 2^bits`), then `n |= 1 << (bits - 1)`
(force the top bit) and `n |= 1` (force odd). -/
def prime_candidate (bits : Nat) (rand : Nat) : Nat :=
  (rand ||| (1 <<< (bits - 1))) ||| 1

/-- `prime_utils.generate_prime`.  The source is `while True:` — an unbounded
loop with no iteration cap and no failure path; `randbits i` and `wits i` are
the random draws of the `i`-th iteration.  The `fuel` argument models an
arbitrary finite iteration budget: the source returns within `fuel` iterations
of attempt `i` iff this function returns `some`; a result of `none` for every
`fuel` means the source call never returns. -/
def generate_prime (bits : Nat) (randbits : Nat → Nat) (wits : Nat → List Int) :
    Nat → Nat → Option Nat
  | 0, _ => none
  | fuel + 1, i =>
    let n := prime_candidate bits (randbits i)
    if miller_rabin n (wits i) then some n
    else generate_prime bits randbits wits fuel (i + 1)

namespace RSA

/-- `RSA.encrypt`: with `public_key = (e, n)`, raises `OutOfRange`
("Plaintext phải < n") when `plaintext >= n` and otherwise returns
`power_mod(plaintext, e, n)`.  The source checks only the upper bound. -/
def encrypt (plaintext : Int) (public_key : Int × Int) : Except PyValueError Int :=
  if plaintext ≥ public_key.2 then .error .OutOfRange
  else .ok (power_mod plaintext public_key.1 public_key.2)

/-- `RSA.decrypt`: with `private_key = (d, n)`, returns
`power_mod(ciphertext, d, n)`; no range validation. -/
def decrypt (ciphertext : Int) (private_key : Int × Int) : Int :=
  power_mod ciphertext private_key.1 private_key.2

/-- The `e = 3; while gcd(e, phi_n) != 1: e += 2` fallback loop of
`RSA.generate_keypair`.  The `e ≤ phi` bound is only there to make the
recursion well-founded; it never alters the result on reachable inputs:
for `phi = (p-1)*(q-1)` of two distinct primes, `phi` is even and `≥ 2`,
so the odd scan stops at the latest at `phi + 1` (coprime to `phi`),
strictly before the bound can bite. -/
def eLoop (phi e : Int) : Int :=
  if h : gcd e phi ≠ 1 ∧ e ≤ phi then eLoop phi (e + 2) else e
termination_by (phi + 2 - e).toNat
decreasing_by omega

/-- `RSA.generate_keypair`, as a function of the two sampled primes:
`p = generate_prime(...)` and `q = generate_prime(...)` resampled by
`while p == q` until `q ≠ p` (so outcomes of the sampling are exactly the
pairs with `p ≠ q`).  Computes `n = p*q`, `phi_n = (p-1)*(q-1)`, picks
`e = 65537` when coprime to `phi_n` and otherwise scans odd `e` from 3, and
sets `d = mod_inverse(e, phi_n)`.  Returns `((e, n), (d, n))`. -/
def generate_keypair (p q : Int) : Except PyValueError ((Int × Int) × (Int × Int)) :=
  let n := p * q
  let phi_n := (p - 1) * (q - 1)
  let e := if gcd 65537 phi_n ≠ 1 then eLoop phi_n 3 else 65537
  (mod_inverse e phi_n).map fun d => ((e, n), (d, n))

end RSA

/-- The key-holding state of `digital_signature.DigitalSignature`:
`self.public_key` and `self.private_key`, each `None` until
`generate_keys` stores the pair produced by `RSA.generate_keypair`. -/
structure DigitalSignature where
  public_key : Option (Int × Int)
  private_key : Option (Int × Int)

/-- `DigitalSignature.sign`.  `hash_int` is the SHA-256 digest-as-integer
collaborator (`self.sha256.hash_int`), whose implementation is outside the
embedded core; the spec's `HashFunction.digest_to_integer` contract only
requires a deterministic non-negative integer per message.  A `None` key
argument falls back to `self.private_key`; if that is also `None` the call
raises `KeyNotSet`.  Otherwise the digest is reduced modulo `n` and signed
with `RSA.decrypt` (`hash^d mod n`). -/
def DigitalSignature.sign (self : DigitalSignature) (hash_int : String → Int)
    (message : String) (private_key : Option (Int × Int)) : Except PyValueError Int :=
  match private_key.orElse fun _ => self.private_key with
  | none => .error .KeyNotSet
  | some (d, n) =>
    let hash_value := hash_int message
    let hash_value := hash_value.fmod n
    .ok (RSA.decrypt hash_value (d, n))

/-- `DigitalSignature.verify`.  A `None` key argument falls back to
`self.public_key`; if that is also `None` the call raises `KeyNotSet`.
Otherwise the digest is reduced modulo `n` and compared with
`RSA.encrypt(signature, public_key)` (`signature^e mod n`), whose
range check propagates. -/
def DigitalSignature.verify (self : DigitalSignature) (hash_int : String → Int)
    (message : String) (signature : Int) (public_key : Option (Int × Int)) :
    Except PyValueError Bool :=
  match public_key.orElse fun _ => self.public_key with
  | none => .error .KeyNotSet
  | some (e, n) =>
    let hash_value := (hash_int message).fmod n
    (RSA.encrypt signature (e, n)).map fun dec => hash_value == dec

/-! ### Correctness of `power_mod` -/

/-- The square-and-multiply loop computes `(result * base ^ exponent) % modulus`
for every positive exponent. -/
theorem powerModLoop_eq (m : Int) (hm : 0 < m) :
    ∀ (k : Nat) (e : Int), e.toNat ≤ k → 0 < e → ∀ b r : Int,
      powerModLoop m b e r = (r * b ^ e.toNat) % m := by
  intro k
  induction k with
  | zero => intro e hek he0; omega
  | succ k ih =>
    intro e hek he0 b r
    have hfd : e.fdiv 2 = e / 2 := Int.fdiv_eq_ediv _ (by omega)
    have hfm : e.fmod 2 = e % 2 := Int.fmod_eq_emod _ (by omega)
    have hmm : ∀ x : Int, x.fmod m = x % m := fun x => Int.fmod_eq_emod _ (by omega)
    rw [powerModLoop, dif_pos he0]
    simp only [hfd, hfm, hmm]
    rcases eq_or_lt_of_le (by omega : (1:Int) ≤ e) with h1 | h1
    · -- e = 1 : one multiply step, then the loop exits
      rw [← h1]
      norm_num
      rw [powerModLoop, dif_neg (by norm_num)]
    · -- e ≥ 2 : the halved exponent is still positive, apply the IH
      have hrec : 0 < e / 2 := by omega
      have htn : (e / 2).toNat ≤ k := by omega
      rw [ih (e / 2) htn hrec]
      have hsplit : e.toNat = 2 * (e / 2).toNat + e.toNat % 2 := by omega
      by_cases hodd : e % 2 = 1
      · rw [if_pos hodd]
        have : (r * b % m) * ((b * b % m) ^ (e / 2).toNat) ≡
            r * b ^ e.toNat [ZMOD m] := by
          calc (r * b % m) * ((b * b % m) ^ (e / 2).toNat)
              ≡ (r * b) * ((b * b) ^ (e / 2).toNat) [ZMOD m] :=
                Int.ModEq.mul (Int.emod_emod_of_dvd _ dvd_rfl)
                  (Int.ModEq.pow _ (Int.emod_emod_of_dvd _ dvd_rfl))
            _ = r * b ^ e.toNat := by
                rw [show b * b = b ^ 2 from (sq b).symm, ← pow_mul,
                  show e.toNat = 2 * (e / 2).toNat + 1 by omega, pow_succ]
                ring
        exact this
      · rw [if_neg hodd]
        have : r * ((b * b % m) ^ (e / 2).toNat) ≡ r * b ^ e.toNat [ZMOD m] := by
          calc r * ((b * b % m) ^ (e / 2).toNat)
              ≡ r * ((b * b) ^ (e / 2).toNat) [ZMOD m] :=
                Int.ModEq.mul (Int.ModEq.refl r)
                  (Int.ModEq.pow _ (Int.emod_emod_of_dvd _ dvd_rfl))
            _ = r * b ^ e.toNat := by
                rw [show b * b = b ^ 2 from (sq b).symm, ← pow_mul,
                  show e.toNat = 2 * (e / 2).toNat by omega]
        exact this

/-- `power_mod b e m = b ^ e % m` for every modulus `m > 1` and exponent
`e ≥ 0`. -/
theorem power_mod_eq (b e m : Int) (hm : 1 < m) (he : 0 ≤ e) :
    power_mod b e m = b ^ e.toNat % m := by
  rw [power_mod, if_neg (by omega)]
  rcases eq_or_lt_of_le he with h0 | h0
  · rw [powerModLoop, dif_neg (by omega), show e.toNat = 0 by omega, pow_zero]
    exact (Int.emod_eq_of_lt (by norm_num) hm).symm
  · rw [powerModLoop_eq m (by omega) e.toNat e le_rfl h0,
      Int.fmod_eq_emod _ (by omega), one_mul]
    exact Int.ModEq.pow _ (Int.emod_emod_of_dvd _ dvd_rfl)

/-- The result of `power_mod` lies in `[0, m)` for `m > 1`, `e ≥ 0`. -/
theorem power_mod_bounds (b e m : Int) (hm : 1 < m) (he : 0 ≤ e) :
    0 ≤ power_mod b e m ∧ power_mod b e m < m := by
  rw [power_mod_eq b e m hm he]
  exact ⟨Int.emod_nonneg _ (by omega), Int.emod_lt_of_pos _ (by omega)⟩

/-! ### Correctness of `gcd`, `extended_gcd` and `mod_inverse` on the
non-negative inputs the key generator feeds them -/

/-- On non-negative inputs the source's iterative `gcd` computes `Nat.gcd`. -/
theorem gcd_eq_natGcd (B : Nat) : ∀ A : Nat, gcd ↑A ↑B = ↑(Nat.gcd A B) := by
  induction B using Nat.strong_induction_on with
  | _ B ih =>
    intro A
    by_cases hB : B = 0
    · subst hB
      rw [gcd, dif_pos (by norm_num : ((0:Nat):Int) = 0), Nat.gcd_zero_right]
    · rw [gcd, dif_neg (by exact_mod_cast hB)]
      have hfm : (↑A : Int).fmod ↑B = ↑(A % B) := by
        rw [Int.fmod_eq_emod _ (by positivity), Int.ofNat_emod]
      rw [hfm, ih (A % B) (Nat.mod_lt _ (by omega)) B]
      rw [Nat.gcd_comm B (A % B), ← Nat.gcd_rec B A, Nat.gcd_comm B A]

/-- Bézout correctness of the recursive `extended_gcd` on the inputs
`mod_inverse` uses (`a ≥ 0`, `b > 0`): the first component is the gcd and
the returned coefficients satisfy `a*x + b*y = gcd a b`. -/
theorem extended_gcd_spec (A : Nat) : ∀ B : Nat, 0 < B →
    (extended_gcd ↑A ↑B).1 = ↑(Nat.gcd A B) ∧
    ↑A * (extended_gcd ↑A ↑B).2.1 + ↑B * (extended_gcd ↑A ↑B).2.2 = ↑(Nat.gcd A B) := by
  induction A using Nat.strong_induction_on with
  | _ A ih =>
    intro B hB
    by_cases hA : A = 0
    · subst hA
      rw [extended_gcd, dif_pos (by norm_num : ((0:Nat):Int) = 0), Nat.gcd_zero_left]
      exact ⟨rfl, by push_cast; ring⟩
    · rw [extended_gcd, dif_neg (by exact_mod_cast hA)]
      have hApos : 0 < A := by omega
      have hfm : (↑B : Int).fmod ↑A = ↑(B % A) := by
        rw [Int.fmod_eq_emod _ (by positivity), Int.ofNat_emod]
      have hfd : (↑(B % A) : Int) = ↑B - ↑A * (↑B : Int).fdiv ↑A := by
        rw [← hfm, Int.fmod_def]
      rw [hfm]
      obtain ⟨hg, hbez⟩ := ih (B % A) (Nat.mod_lt _ hApos) A hApos
      have hgr : Nat.gcd (B % A) A = Nat.gcd A B := by
        rw [← Nat.gcd_rec A B]
      refine ⟨by rw [hg, hgr], ?_⟩
      rw [← hgr, ← hbez]
      set x1 := (extended_gcd ↑(B % A) ↑A).2.1
      set y1 := (extended_gcd ↑(B % A) ↑A).2.2
      have : (↑(B % A) : Int) * x1 = (↑B - ↑A * (↑B : Int).fdiv ↑A) * x1 := by
        rw [← hfd]
      linear_combination -this

/-- Behaviour of `mod_inverse` on `a ≥ 0`, `m > 1`: when `gcd(a,m) = 1` it
returns the inverse of `a`, normalized into `[0, m)`; when `gcd(a,m) ≠ 1` it
raises `NoModularInverse`. -/
theorem mod_inverse_spec (a m : Nat) (hm : 1 < m) :
    (Nat.gcd a m = 1 →
      ∃ x : Int, mod_inverse ↑a ↑m = .ok x ∧ 0 ≤ x ∧ x < ↑m ∧ (↑a * x) % (↑m : Int) = 1) ∧
    (Nat.gcd a m ≠ 1 → mod_inverse ↑a ↑m = .error .NoModularInverse) := by
  obtain ⟨hg, hbez⟩ := extended_gcd_spec a m (by omega)
  constructor
  · intro h1
    rw [h1] at hg hbez
    refine ⟨((extended_gcd ↑a ↑m).2.1.fmod ↑m + ↑m).fmod ↑m, ?_, ?_, ?_, ?_⟩
    · rw [mod_inverse, if_neg (by rw [hg]; simp)]
    all_goals {
      set x1 := (extended_gcd ↑a ↑m).2.1 with hx1
      have hmpos : (0:Int) < ↑m := by positivity
      have hred : (x1.fmod ↑m + ↑m).fmod ↑m = x1 % ↑m := by
        rw [Int.fmod_eq_emod _ (by positivity), Int.fmod_eq_emod _ (by positivity),
          show x1 % ↑m + ↑m = x1 % ↑m + ↑m * 1 by ring,
          Int.add_mul_emod_self_left, Int.emod_emod_of_dvd _ dvd_rfl]
      rw [hred]
      first
      | exact Int.emod_nonneg _ (by omega)
      | exact Int.emod_lt_of_pos _ hmpos
      | ( -- (a * (x1 % m)) % m = 1
          have step : (↑a : Int) * (x1 % ↑m) ≡ ↑a * x1 [ZMOD ↑m] :=
            Int.ModEq.mul (Int.ModEq.refl _) (Int.emod_emod_of_dvd _ dvd_rfl)
          have hx : (↑a : Int) * x1 = 1 - ↑m * (extended_gcd ↑a ↑m).2.2 := by
            push_cast at hbez
            linear_combination hbez
          calc ((↑a : Int) * (x1 % ↑m)) % ↑m = (↑a * x1) % ↑m := step
            _ = 1 % ↑m := by
                rw [hx, show (1:Int) - ↑m * (extended_gcd ↑a ↑m).2.2 =
                  1 + ↑m * (-(extended_gcd ↑a ↑m).2.2) by ring,
                  Int.add_mul_emod_self_left]
            _ = 1 := Int.emod_eq_of_lt (by norm_num) (by exact_mod_cast hm) )
    }
  · intro h1
    rw [mod_inverse, if_pos]
    rw [hg]
    exact_mod_cast h1

/-! ### The RSA trapdoor identity -/

/-- Fermat step: for a prime `p` and `(p-1) ∣ t`, `m^(t+1) ≡ m (mod p)`. -/
theorem fermat_step (p : Nat) (hp : p.Prime) (m t : Nat) (ht : (p - 1) ∣ t) :
    m ^ (t + 1) ≡ m [MOD p] := by
  haveI := Fact.mk hp
  obtain ⟨c, hc⟩ := ht
  rw [← ZMod.natCast_eq_natCast_iff]
  push_cast
  by_cases hm : (m : ZMod p) = 0
  · rw [hm, zero_pow (by omega)]
  · rw [pow_succ, hc, pow_mul, ZMod.pow_card_sub_one_eq_one hm, one_pow, one_mul]

/-- The core RSA identity: for distinct primes `p, q` and an exponent `s` with
`s ≡ 1 (mod (p-1)(q-1))`, the map `m ↦ m^s` is the identity modulo `p*q`. -/
theorem rsa_core (p q : Nat) (hp : p.Prime) (hq : q.Prime) (hne : p ≠ q)
    (s : Nat) (hs : s % ((p - 1) * (q - 1)) = 1) (m : Nat) :
    m ^ s ≡ m [MOD p * q] := by
  have hsplit : s = (p - 1) * (q - 1) * (s / ((p - 1) * (q - 1))) + 1 := by
    conv_lhs => rw [← Nat.div_add_mod s ((p - 1) * (q - 1))]
    omega
  rw [hsplit]
  have h1 : m ^ ((p - 1) * (q - 1) * (s / ((p - 1) * (q - 1))) + 1) ≡ m [MOD p] :=
    fermat_step p hp m _ ⟨(q - 1) * (s / ((p - 1) * (q - 1))), by ring⟩
  have h2 : m ^ ((p - 1) * (q - 1) * (s / ((p - 1) * (q - 1))) + 1) ≡ m [MOD q] :=
    fermat_step q hq m _ ⟨(p - 1) * (s / ((p - 1) * (q - 1))), by ring⟩
  exact (Nat.modEq_and_modEq_iff_modEq_mul
    ((Nat.coprime_primes hp hq).mpr hne)).mp ⟨h1, h2⟩

/-- C1: for every key pair `((e, n), (d, n))` produced by
`RSA.generate_keypair` — so `n = p*q` for distinct primes `p, q` and
`d*e ≡ 1 (mod (p-1)(q-1))` — and every plaintext `0 ≤ m < n`,
`decrypt(encrypt(m, (e, n)), (d, n)) = m`. -/
theorem C1_encrypt_decrypt_round_trip (p q e d : Nat) (m : Int)
    (hp : p.Prime) (hq : q.Prime) (hne : p ≠ q)
    (hed : (d * e) % ((p - 1) * (q - 1)) = 1)
    (hm0 : 0 ≤ m) (hmn : m < (p : Int) * (q : Int)) :
    (RSA.encrypt m ((e : Int), (p : Int) * (q : Int))).map
      (fun c => RSA.decrypt c ((d : Int), (p : Int) * (q : Int))) = .ok m := by
  have hp2 := hp.two_le
  have hq2 := hq.two_le
  have hN4 : 4 ≤ p * q := Nat.mul_le_mul hp2 hq2
  have hcast : (p : Int) * (q : Int) = ((p * q : Nat) : Int) := by push_cast; ring
  have hNi : (1 : Int) < ((p * q : Nat) : Int) := by exact_mod_cast (by omega : 1 < p * q)
  rw [hcast] at hmn ⊢
  simp only [RSA.encrypt, RSA.decrypt]
  rw [if_neg (not_le.mpr hmn)]
  simp only [Except.map]
  rw [power_mod_eq _ _ _ hNi (by positivity), Int.toNat_ofNat,
    power_mod_eq _ _ _ hNi (by positivity), Int.toNat_ofNat]
  have step1 : ((m ^ e % ((p * q : Nat) : Int)) ^ d) % ((p * q : Nat) : Int)
      = (m ^ (e * d)) % ((p * q : Nat) : Int) := by
    calc ((m ^ e % ((p * q : Nat) : Int)) ^ d) % ((p * q : Nat) : Int)
        = ((m ^ e) ^ d) % ((p * q : Nat) : Int) :=
          Int.ModEq.pow d (Int.emod_emod_of_dvd _ dvd_rfl)
      _ = (m ^ (e * d)) % ((p * q : Nat) : Int) := by rw [← pow_mul]
  rw [step1]
  have hmM : m = ((m.toNat : Nat) : Int) := (Int.toNat_of_nonneg hm0).symm
  have hMN : m.toNat < p * q := by omega
  have hmod : m.toNat ^ (e * d) % (p * q) = m.toNat % (p * q) :=
    rsa_core p q hp hq hne (e * d) (by rwa [Nat.mul_comm e d]) m.toNat
  rw [hmM, ← Nat.cast_pow, ← Int.ofNat_emod, hmod, Nat.mod_eq_of_lt hMN]

/-- Witness for C1 at `p = 3`, `q = 11`, `e = 3`, `d = 7`, `m = 2`. -/
theorem C1_witness :
    Nat.Prime 3 ∧ Nat.Prime 11 ∧ (3 : Nat) ≠ 11 ∧
    (7 * 3) % (((3 : Nat) - 1) * (11 - 1)) = 1 ∧
    (0 : Int) ≤ 2 ∧ (2 : Int) < ((3 : Nat) : Int) * ((11 : Nat) : Int) ∧
    (RSA.encrypt 2 (((3 : Nat) : Int), ((3 : Nat) : Int) * ((11 : Nat) : Int))).map
      (fun c => RSA.decrypt c (((7 : Nat) : Int), ((3 : Nat) : Int) * ((11 : Nat) : Int)))
      = .ok 2 :=
  ⟨by norm_num, by norm_num, by norm_num, by norm_num, by norm_num, by norm_num,
    C1_encrypt_decrypt_round_trip 3 11 3 7 2 (by norm_num) (by norm_num)
      (by norm_num) (by norm_num) (by norm_num) (by norm_num)⟩

/-- C2: for every key pair produced by `generate_keypair` and every message,
`verify(M, sign(M, private), public) = True`.  `sign` reduces the digest
modulo `n` and applies `power_mod(·, d, n)`; `verify` compares the reduced
digest with `power_mod(signature, e, n)`.  The digest function `hash_int`
(the SHA-256 collaborator, outside the embedded core) is arbitrary. -/
theorem C2_sign_verify (p q e d : Nat) (self : DigitalSignature)
    (hash_int : String → Int) (message : String)
    (hp : p.Prime) (hq : q.Prime) (hne : p ≠ q)
    (hed : (d * e) % ((p - 1) * (q - 1)) = 1) :
    (self.sign hash_int message (some ((d : Int), (p : Int) * (q : Int)))).bind
      (fun s => self.verify hash_int message s
        (some ((e : Int), (p : Int) * (q : Int)))) = .ok true := by
  have hp2 := hp.two_le
  have hq2 := hq.two_le
  have hN4 : 4 ≤ p * q := Nat.mul_le_mul hp2 hq2
  have hcast : (p : Int) * (q : Int) = ((p * q : Nat) : Int) := by push_cast; ring
  have hNi : (1 : Int) < ((p * q : Nat) : Int) := by exact_mod_cast (by omega : 1 < p * q)
  rw [hcast]
  have hn0 : (0 : Int) < ((p * q : Nat) : Int) := by omega
  have hsign : self.sign hash_int message (some ((d : Int), ((p * q : Nat) : Int)))
      = .ok (power_mod ((hash_int message).fmod ((p * q : Nat) : Int)) (d : Int)
          ((p * q : Nat) : Int)) := rfl
  rw [hsign]
  have hfm : (hash_int message).fmod ((p * q : Nat) : Int)
      = (hash_int message) % ((p * q : Nat) : Int) := Int.fmod_eq_emod _ (le_of_lt hn0)
  have hh0 : 0 ≤ (hash_int message) % ((p * q : Nat) : Int) := Int.emod_nonneg _ (by omega)
  have hhn : (hash_int message) % ((p * q : Nat) : Int) < ((p * q : Nat) : Int) :=
    Int.emod_lt_of_pos _ hn0
  rw [hfm, power_mod_eq _ _ _ hNi (by positivity), Int.toNat_ofNat]
  have hsig0 : 0 ≤ (hash_int message % ((p * q : Nat) : Int)) ^ d % ((p * q : Nat) : Int) :=
    Int.emod_nonneg _ (by omega)
  have hsign' : (hash_int message % ((p * q : Nat) : Int)) ^ d % ((p * q : Nat) : Int)
      < ((p * q : Nat) : Int) := Int.emod_lt_of_pos _ hn0
  show (self.verify hash_int message _ (some ((e : Int), ((p * q : Nat) : Int)))) = .ok true
  have hver : ∀ s : Int, self.verify hash_int message s
      (some ((e : Int), ((p * q : Nat) : Int)))
      = (RSA.encrypt s ((e : Int), ((p * q : Nat) : Int))).map
          (fun dec => (hash_int message).fmod ((p * q : Nat) : Int) == dec) :=
    fun s => rfl
  rw [hver]
  simp only [RSA.encrypt]
  rw [if_neg (not_le.mpr hsign')]
  simp only [Except.map]
  rw [power_mod_eq _ _ _ hNi (by positivity), Int.toNat_ofNat, hfm]
  have step1 : ((hash_int message % ((p * q : Nat) : Int)) ^ d
        % ((p * q : Nat) : Int)) ^ e % ((p * q : Nat) : Int)
      = (hash_int message % ((p * q : Nat) : Int)) ^ (d * e) % ((p * q : Nat) : Int) := by
    calc ((hash_int message % ((p * q : Nat) : Int)) ^ d
          % ((p * q : Nat) : Int)) ^ e % ((p * q : Nat) : Int)
        = ((hash_int message % ((p * q : Nat) : Int)) ^ d) ^ e % ((p * q : Nat) : Int) :=
          Int.ModEq.pow e (Int.emod_emod_of_dvd _ dvd_rfl)
      _ = (hash_int message % ((p * q : Nat) : Int)) ^ (d * e) % ((p * q : Nat) : Int) := by
          rw [← pow_mul]
  rw [step1]
  have hmM : hash_int message % ((p * q : Nat) : Int)
      = (((hash_int message % ((p * q : Nat) : Int)).toNat : Nat) : Int) :=
    (Int.toNat_of_nonneg hh0).symm
  have hMN : (hash_int message % ((p * q : Nat) : Int)).toNat < p * q := by omega
  have hmod : (hash_int message % ((p * q : Nat) : Int)).toNat ^ (d * e) % (p * q)
      = (hash_int message % ((p * q : Nat) : Int)).toNat % (p * q) :=
    rsa_core p q hp hq hne (d * e) hed _
  rw [hmM, ← Nat.cast_pow, ← Int.ofNat_emod, hmod, Nat.mod_eq_of_lt hMN]
  simp

/-- Witness for C2 at `p = 3`, `q = 11`, `e = 3`, `d = 7`, a constant digest
function and the message `"m"`. -/
theorem C2_witness :
    Nat.Prime 3 ∧ Nat.Prime 11 ∧ (3 : Nat) ≠ 11 ∧
    (7 * 3) % (((3 : Nat) - 1) * (11 - 1)) = 1 ∧
    ((DigitalSignature.mk none none).sign (fun _ => 5) "m"
        (some (((7 : Nat) : Int), ((3 : Nat) : Int) * ((11 : Nat) : Int)))).bind
      (fun s => (DigitalSignature.mk none none).verify (fun _ => 5) "m" s
        (some (((3 : Nat) : Int), ((3 : Nat) : Int) * ((11 : Nat) : Int)))) = .ok true :=
  ⟨by norm_num, by norm_num, by norm_num, by norm_num,
    C2_sign_verify 3 11 3 7 (DigitalSignature.mk none none) (fun _ => 5) "m"
      (by norm_num) (by norm_num) (by norm_num) (by norm_num)⟩

/-! ### Key-generation invariants -/

/-- For distinct primes `p, q`, the totient `(p-1)*(q-1)` is even and at
least 2. -/
theorem phi_facts (p q : Nat) (hp : p.Prime) (hq : q.Prime) (hne : p ≠ q) :
    2 ≤ (p - 1) * (q - 1) ∧ 2 ∣ (p - 1) * (q - 1) := by
  have hp2 := hp.two_le
  have hq2 := hq.two_le
  by_cases hpe : p = 2
  · obtain ⟨c, hc⟩ := hq.odd_of_ne_two (by omega)
    subst hpe
    constructor <;> omega
  · by_cases hqe : q = 2
    · obtain ⟨c, hc⟩ := hp.odd_of_ne_two hpe
      subst hqe
      have h1 : (p - 1) * (2 - 1) = p - 1 := by omega
      rw [h1]
      constructor <;> omega
    · obtain ⟨c, hc⟩ := hp.odd_of_ne_two hpe
      obtain ⟨c', hc'⟩ := hq.odd_of_ne_two hqe
      have hc1 : 1 ≤ c := by omega
      have hc'1 : 1 ≤ c' := by omega
      rw [show p - 1 = 2 * c by omega, show q - 1 = 2 * c' by omega]
      exact ⟨by nlinarith, ⟨c * (2 * c'), by ring⟩⟩

/-- The odd-`e` fallback scan stops at a value coprime to `phi`: for an even
`phi ≥ 2` and an odd starting point `3 ≤ e ≤ phi + 1`, the result of `eLoop`
has `gcd = 1` and is at least 3. -/
theorem eLoop_spec (phi : Int) (hphi : 2 ≤ phi) (heven : (2:Int) ∣ phi) :
    ∀ (k : Nat) (e : Int), (phi + 2 - e).toNat ≤ k → 3 ≤ e → e ≤ phi + 1 →
      ¬ (2:Int) ∣ e →
      gcd (RSA.eLoop phi e) phi = 1 ∧ 3 ≤ RSA.eLoop phi e := by
  intro k
  induction k with
  | zero => intro e h1 h2 h3 _; omega
  | succ k ih =>
    intro e hk he3 hetop heodd
    rw [RSA.eLoop]
    split
    next h => exact ih (e + 2) (by omega) (by omega) (by omega) (by omega)
    next h =>
      push_neg at h
      by_cases hg : gcd e phi = 1
      · exact ⟨hg, he3⟩
      · exfalso
        have hephi : e = phi + 1 := by
          have := h hg
          omega
        have hsucc : gcd (phi + 1) phi = 1 := by
          rw [show phi = ((phi.toNat : Nat) : Int) by omega,
            show (((phi.toNat : Nat) : Int)) + 1 = ((phi.toNat + 1 : Nat) : Int) by push_cast; ring,
            gcd_eq_natGcd, Nat.gcd_self_add_left, Nat.gcd_one_left]
          norm_num
        exact hg (hephi ▸ hsucc)

/-- C3: for every pair of keys returned by `RSA.generate_keypair` on the two
sampled distinct primes `p, q` (the resampling loop guarantees `p ≠ q`):
`n = p*q`, `gcd(e, φ) = 1`, `d*e ≡ 1 (mod φ)` and `0 ≤ d < φ`,
where `φ = (p-1)*(q-1)`. -/
theorem C3_keypair_invariants (p q : Nat) (hp : p.Prime) (hq : q.Prime) (hne : p ≠ q) :
    ∃ e d : Int,
      RSA.generate_keypair ↑p ↑q
        = .ok ((e, (p : Int) * (q : Int)), (d, (p : Int) * (q : Int))) ∧
      p ≠ q ∧
      0 < e ∧
      Int.gcd e (((p : Int) - 1) * ((q : Int) - 1)) = 1 ∧
      (d * e) % (((p : Int) - 1) * ((q : Int) - 1)) = 1 ∧
      0 ≤ d ∧ d < ((p : Int) - 1) * ((q : Int) - 1) := by
  have hp1 := hp.one_le
  have hq1 := hq.one_le
  obtain ⟨hphi2, hphieven⟩ := phi_facts p q hp hq hne
  have hcast : ((p : Int) - 1) * ((q : Int) - 1) = (((p - 1) * (q - 1) : Nat) : Int) := by
    push_cast [Nat.cast_sub hp1, Nat.cast_sub hq1]
    ring
  have hΦ1 : 1 < (p - 1) * (q - 1) := by omega
  have hΦI : (2 : Int) ≤ (((p - 1) * (q - 1) : Nat) : Int) := by exact_mod_cast hphi2
  have hΦIeven : (2 : Int) ∣ (((p - 1) * (q - 1) : Nat) : Int) := by exact_mod_cast hphieven
  have key : ∀ eI : Int, 3 ≤ eI → Nat.gcd eI.toNat ((p - 1) * (q - 1)) = 1 →
      ∃ x : Int, mod_inverse eI (((p - 1) * (q - 1) : Nat) : Int) = .ok x ∧
        0 ≤ x ∧ x < (((p - 1) * (q - 1) : Nat) : Int) ∧
        (eI * x) % ((((p - 1) * (q - 1) : Nat)) : Int) = 1 ∧
        Int.gcd eI ((((p - 1) * (q - 1) : Nat)) : Int) = 1 := by
    intro eI h0 hgcd
    rw [show eI = ((eI.toNat : Nat) : Int) by omega]
    obtain ⟨x, hok, hx0, hxm, hprod⟩ := (mod_inverse_spec eI.toNat _ hΦ1).1 hgcd
    exact ⟨x, hok, hx0, hxm, hprod, by rw [Int.gcd_natCast_natCast]; exact hgcd⟩
  simp only [RSA.generate_keypair]
  rw [show ((p:Int) - 1) * ((q:Int) - 1) = (((p - 1) * (q - 1) : Nat) : Int) from hcast] at *
  by_cases hg65 : gcd 65537 (((p - 1) * (q - 1) : Nat) : Int) = 1
  · rw [if_neg (by simpa using hg65)]
    have hgN : Nat.gcd 65537 ((p - 1) * (q - 1)) = 1 := by
      have := gcd_eq_natGcd ((p - 1) * (q - 1)) 65537
      rw [show ((65537 : Nat) : Int) = (65537 : Int) by norm_num] at this
      rw [this] at hg65
      exact_mod_cast hg65
    obtain ⟨x, hok, hx0, hxm, hprod, hgcdI⟩ := key 65537 (by norm_num)
      (by rw [show (65537 : Int).toNat = 65537 from rfl]; exact hgN)
    refine ⟨65537, x, ?_, hne, by norm_num, hgcdI, ?_, hx0, hxm⟩
    · rw [hok]
      rfl
    · rw [mul_comm]
      exact hprod
  · rw [if_pos (by simpa using hg65)]
    obtain ⟨hgE, hE3⟩ := eLoop_spec (((p - 1) * (q - 1) : Nat) : Int) hΦI hΦIeven
      ((((p - 1) * (q - 1) : Nat) : Int) + 2 - 3).toNat 3 le_rfl (by norm_num)
      (by omega) (by decide)
    have hgN : Nat.gcd (RSA.eLoop (((p - 1) * (q - 1) : Nat) : Int) 3).toNat
        ((p - 1) * (q - 1)) = 1 := by
      have h' := gcd_eq_natGcd ((p - 1) * (q - 1))
        (RSA.eLoop (((p - 1) * (q - 1) : Nat) : Int) 3).toNat
      rw [Int.toNat_of_nonneg (by omega)] at h'
      rw [h'] at hgE
      exact_mod_cast hgE
    obtain ⟨x, hok, hx0, hxm, hprod, hgcdI⟩ := key _ hE3 hgN
    refine ⟨_, x, ?_, hne, by omega, hgcdI, ?_, hx0, hxm⟩
    · rw [hok]
      rfl
    · rw [mul_comm]
      exact hprod

/-- Witness for C3 at `p = 3`, `q = 11`. -/
theorem C3_witness :
    Nat.Prime 3 ∧ Nat.Prime 11 ∧ (3 : Nat) ≠ 11 ∧
    (∃ e d : Int,
      RSA.generate_keypair ((3:Nat) : Int) ((11:Nat) : Int)
        = .ok ((e, ((3:Nat) : Int) * ((11:Nat) : Int)), (d, ((3:Nat) : Int) * ((11:Nat) : Int))) ∧
      (3:Nat) ≠ 11 ∧
      0 < e ∧
      Int.gcd e ((((3:Nat) : Int) - 1) * (((11:Nat) : Int) - 1)) = 1 ∧
      (d * e) % ((((3:Nat) : Int) - 1) * (((11:Nat) : Int) - 1)) = 1 ∧
      0 ≤ d ∧ d < (((3:Nat) : Int) - 1) * (((11:Nat) : Int) - 1)) :=
  ⟨by norm_num, by norm_num, by norm_num,
    C3_keypair_invariants 3 11 (by norm_num) (by norm_num) (by norm_num)⟩

/-- Shifting `b` by an integer multiple of `a` does not change `gcd`. -/
theorem int_gcd_sub_mul (a b k : Int) : Int.gcd (b - a * k) a = Int.gcd a b := by
  apply Nat.dvd_antisymm
  · apply Int.natCast_dvd_natCast.mp
    apply Int.dvd_gcd
    · exact Int.gcd_dvd_right
    · have h1 : ((Int.gcd (b - a * k) a : Nat) : Int) ∣ (b - a * k) := Int.gcd_dvd_left
      have h2 : ((Int.gcd (b - a * k) a : Nat) : Int) ∣ a := Int.gcd_dvd_right
      have h3 : ((Int.gcd (b - a * k) a : Nat) : Int) ∣ (b - a * k) + a * k :=
        dvd_add h1 (h2.mul_right k)
      simpa using h3
  · apply Int.natCast_dvd_natCast.mp
    apply Int.dvd_gcd
    · have h1 : ((Int.gcd a b : Nat) : Int) ∣ a := Int.gcd_dvd_left
      have h2 : ((Int.gcd a b : Nat) : Int) ∣ b := Int.gcd_dvd_right
      exact dvd_sub h2 (h1.mul_right k)
    · exact Int.gcd_dvd_left

/-- On every integer input — negative, zero or positive — the first component
of `extended_gcd` has `gcd(a,b)` as its absolute value.  (Its sign can be
negative, which is exactly what makes `mod_inverse` misjudge negative `a`.) -/
theorem extended_gcd_fst_natAbs : ∀ (k : Nat) (a b : Int), a.natAbs ≤ k →
    (extended_gcd a b).1.natAbs = Int.gcd a b := by
  intro k
  induction k with
  | zero =>
    intro a b hk
    have ha : a = 0 := by omega
    subst ha
    rw [extended_gcd, dif_pos rfl]
    exact (Int.gcd_zero_left b).symm
  | succ k ih =>
    intro a b hk
    by_cases ha : a = 0
    · subst ha
      rw [extended_gcd, dif_pos rfl]
      exact (Int.gcd_zero_left b).symm
    · rw [extended_gcd, dif_neg ha]
      show (extended_gcd (b.fmod a) a).1.natAbs = Int.gcd a b
      rw [ih (b.fmod a) a (by have := fmod_natAbs_lt b a ha; omega)]
      rw [Int.fmod_def]
      exact int_gcd_sub_mul a b (b.fdiv a)

/-- C4 (amended): the error branch holds exactly as claimed, for every `a`
and every `m` — whenever `gcd(a,m) ≠ 1`, `mod_inverse` raises
`NoModularInverse`, because the first component of `extended_gcd` always has
`gcd(a,m)` as its absolute value and so is never 1.  The success branch needs
`a ≥ 0` and `m > 1`: at `m = 1` the returned value satisfies
`(a*x) % m = 0 ≠ 1`, and for negative `a` the recursion can return
`gcd_val = -1`, making `mod_inverse` raise even though `gcd(a,m) = 1`. -/
theorem C4_mod_inverse_law (a m : Int) :
    (0 ≤ a → 1 < m → Int.gcd a m = 1 →
      ∃ x : Int, mod_inverse a m = .ok x ∧ 0 ≤ x ∧ x < m ∧ (a * x) % m = 1) ∧
    (Int.gcd a m ≠ 1 → mod_inverse a m = .error .NoModularInverse) := by
  constructor
  · intro ha hm hg
    have haN : a = ((a.toNat : Nat) : Int) := by omega
    have hmN : m = ((m.toNat : Nat) : Int) := by omega
    rw [haN, hmN] at hg ⊢
    rw [Int.gcd_natCast_natCast] at hg
    exact (mod_inverse_spec a.toNat m.toNat (by omega)).1 hg
  · intro hg
    have hne : (extended_gcd a m).1 ≠ 1 := by
      intro heq
      apply hg
      have h := extended_gcd_fst_natAbs a.natAbs a m le_rfl
      rw [heq] at h
      simpa using h.symm
    rw [mod_inverse, if_pos hne]

/-- Witness for C4: the success branch at the spec's own scenario
(`mod_inverse(3, 11)`), and the error branch at `a = 4`, `m = 6`. -/
theorem C4_witness :
    ((0:Int) ≤ 3 ∧ (1:Int) < 11 ∧ Int.gcd 3 11 = 1 ∧
      ∃ x : Int, mod_inverse 3 11 = .ok x ∧ 0 ≤ x ∧ x < 11 ∧
        ((3:Int) * x) % (11:Int) = 1) ∧
    (Int.gcd 4 6 ≠ 1 ∧ mod_inverse 4 6 = .error .NoModularInverse) :=
  ⟨⟨by norm_num, by norm_num, by decide,
    (C4_mod_inverse_law 3 11).1 (by norm_num) (by norm_num) (by decide)⟩,
   ⟨by decide, (C4_mod_inverse_law 4 6).2 (by decide)⟩⟩

/-- Counterexample for C4 as stated over all `a` and `m > 0`:
at `a = m = 1` (where `gcd(1,1) = 1`) the result satisfies
`(1 * x) % 1 = 0 ≠ 1`, and at `a = -3`, `m = 5` (where `gcd(-3,5) = 1`)
the call raises `NoModularInverse` because `extended_gcd(-3,5)` returns
`gcd_val = -1`. -/
theorem C4_counterexample :
    (Nat.gcd 1 1 = 1 ∧ mod_inverse ((1:Nat) : Int) ((1:Nat) : Int) = .ok 0 ∧
      ((1:Int) * 0) % (1:Int) ≠ 1) ∧
    (Int.gcd (-3) 5 = 1 ∧ mod_inverse (-3) 5 = .error .NoModularInverse) := by
  have e1 : extended_gcd ((0:Nat) : Int) 1 = (1, 0, 1) := by
    rw [extended_gcd, dif_pos (by norm_num : ((0:Nat):Int) = 0)]
  have e2 : extended_gcd 1 1 = (1, 1, 0) := by
    rw [extended_gcd, dif_neg (by norm_num : ¬ (1:Int) = 0)]
    rw [show (1:Int).fmod 1 = ((0:Nat) : Int) by decide, e1]
    norm_num
  have e3 : extended_gcd 0 (-1) = (-1, 0, 1) := by
    rw [extended_gcd, dif_pos rfl]
  have e4 : extended_gcd (-1) (-3) = (-1, 1, 0) := by
    rw [extended_gcd, dif_neg (by norm_num : ¬ (-1:Int) = 0)]
    rw [show (-3:Int).fmod (-1) = 0 by decide, e3]
    norm_num
  have e5 : extended_gcd (-3) 5 = (-1, 2, 1) := by
    rw [extended_gcd, dif_neg (by norm_num : ¬ (-3:Int) = 0)]
    rw [show (5:Int).fmod (-3) = -1 by decide, e4,
      show (5:Int).fdiv (-3) = -2 by decide]
    norm_num
  refine ⟨⟨by norm_num, ?_, by norm_num⟩, ⟨by decide, ?_⟩⟩
  · rw [mod_inverse]
    rw [show ((1:Nat) : Int) = (1 : Int) by norm_num]
    rw [e2]
    norm_num
  · rw [mod_inverse, e5]
    norm_num

/-- C6 (amended): `RSA.encrypt` fails with `OutOfRange` exactly when
`plaintext ≥ n`; every plaintext below `n` — negative values included — is
accepted, and `power_mod` reduces it modulo `n` instead of rejecting it. -/
theorem C6_encrypt_range (plaintext e n : Int) :
    (n ≤ plaintext → RSA.encrypt plaintext (e, n) = .error .OutOfRange) ∧
    (plaintext < n → RSA.encrypt plaintext (e, n) = .ok (power_mod plaintext e n)) := by
  constructor
  · intro h
    rw [RSA.encrypt, if_pos (by simpa using h)]
  · intro h
    rw [RSA.encrypt, if_neg (by simpa using not_le.mpr h)]

/-- Witness for C6: both branches at concrete inputs
(`encrypt(7, (3, 5))` rejects, `encrypt(2, (3, 5))` returns). -/
theorem C6_witness :
    ((5:Int) ≤ 7 ∧ RSA.encrypt 7 (3, 5) = .error .OutOfRange) ∧
    ((2:Int) < 5 ∧ RSA.encrypt 2 (3, 5) = .ok (power_mod 2 3 5)) :=
  ⟨⟨by norm_num, (C6_encrypt_range 7 3 5).1 (by norm_num)⟩,
   ⟨by norm_num, (C6_encrypt_range 2 3 5).2 (by norm_num)⟩⟩

/-- Counterexample for C6 as stated: the negative plaintext `-1` is outside
`[0, n)` yet `encrypt(-1, (3, 5))` does not fail — it returns
`(-1 mod 5)^3 mod 5 = 4`. -/
theorem C6_counterexample :
    (-1 : Int) < 0 ∧ RSA.encrypt (-1) (3, 5) = .ok 4 := by
  refine ⟨by norm_num, ?_⟩
  rw [RSA.encrypt, if_neg (by norm_num)]
  rw [power_mod_eq _ _ _ (by norm_num) (by norm_num)]
  rw [show ((3 : Int)).toNat = 3 from rfl]
  simp only [Except.ok.injEq]
  decide

/-- C7: `power_mod` does not reject a negative exponent — contrary to the
spec's contract ("reject with an error, do not silently misbehave"), the
`while exponent > 0` loop is simply skipped and the initial accumulator `1`
is returned silently: `power_mod(2, -1, 5) = 1`. -/
theorem C7_negative_exponent_silently_returns : power_mod 2 (-1) 5 = 1 := by
  rw [power_mod, if_neg (by norm_num)]
  rw [powerModLoop, dif_neg (by norm_num : ¬ (0:Int) < -1)]

/-- C8: `sign`/`verify` with no key argument fail with `KeyNotSet` exactly
when no key pair has been generated; in a keyed state the same calls never
produce that error (`sign` always succeeds, `verify` can only raise
`OutOfRange` from the embedded range check). -/
theorem C8_key_not_set (hash_int : String → Int) (message : String) (sig : Int)
    (e n d : Int) :
    ((DigitalSignature.mk none none).sign hash_int message none
        = .error .KeyNotSet) ∧
    ((DigitalSignature.mk none none).verify hash_int message sig none
        = .error .KeyNotSet) ∧
    (∃ s : Int, (DigitalSignature.mk (some (e, n)) (some (d, n))).sign
        hash_int message none = .ok s) ∧
    ((DigitalSignature.mk (some (e, n)) (some (d, n))).verify
        hash_int message sig none ≠ .error .KeyNotSet) := by
  refine ⟨rfl, rfl, ⟨_, rfl⟩, ?_⟩
  show ((RSA.encrypt sig (e, n)).map
      fun dec => (hash_int message).fmod n == dec) ≠ .error .KeyNotSet
  by_cases hs : n ≤ sig
  · rw [RSA.encrypt, if_pos (by simpa using hs)]
    simp [Except.map]
  · rw [RSA.encrypt, if_neg (by simpa using hs)]
    simp [Except.map]

/-- C10: in a keyed state, `verify` raises (the `OutOfRange` check inside
`RSACipher.encrypt` fires on the signature) whenever `signature ≥ n`, and
returns a boolean whenever `signature < n`. -/
theorem C10_verify_signature_range (self : DigitalSignature)
    (hash_int : String → Int) (message : String) (sig e n : Int) :
    (n ≤ sig → self.verify hash_int message sig (some (e, n))
        = .error .OutOfRange) ∧
    (sig < n → ∃ b : Bool, self.verify hash_int message sig (some (e, n)) = .ok b) := by
  constructor
  · intro h
    show ((RSA.encrypt sig (e, n)).map
        fun dec => (hash_int message).fmod n == dec) = .error .OutOfRange
    rw [RSA.encrypt, if_pos (by simpa using h)]
    rfl
  · intro h
    refine ⟨(hash_int message).fmod n == power_mod sig e n, ?_⟩
    show ((RSA.encrypt sig (e, n)).map
        fun dec => (hash_int message).fmod n == dec) = .ok _
    rw [RSA.encrypt, if_neg (by simpa using not_le.mpr h)]
    rfl

/-- Witness for C10 at `n = 5`: `sig = 7 ≥ 5` raises, `sig = 2 < 5` returns a
boolean. -/
theorem C10_witness :
    ((5:Int) ≤ 7 ∧ (DigitalSignature.mk none none).verify (fun _ => 0) "w" 7
        (some (3, 5)) = .error .OutOfRange) ∧
    ((2:Int) < 5 ∧ ∃ b : Bool, (DigitalSignature.mk none none).verify (fun _ => 0) "w" 2
        (some (3, 5)) = .ok b) :=
  ⟨⟨by norm_num,
    (C10_verify_signature_range (DigitalSignature.mk none none) (fun _ => 0) "w" 7 3 5).1
      (by norm_num)⟩,
   ⟨by norm_num,
    (C10_verify_signature_range (DigitalSignature.mk none none) (fun _ => 0) "w" 2 3 5).2
      (by norm_num)⟩⟩

/-- C9 (amended): `generate_prime` has no iteration cap and no
`PrimalityExhaustion` failure path.  For `bit_length = 1` every candidate
equals 1 (`getrandbits(1) < 2`, and `r ||| 1 ||| 1 = 1`), which
`miller_rabin` always rejects, so no finite iteration budget ever makes the
sampler return: the source's `while True` loop runs forever. -/
theorem C9_generate_prime_unbounded (randbits : Nat → Nat) (wits : Nat → List Int)
    (fuel i : Nat) (h : ∀ j, randbits j < 2) :
    generate_prime 1 randbits wits fuel i = none := by
  induction fuel generalizing i with
  | zero => rfl
  | succ fuel ih =>
    rw [generate_prime]
    have hb := h i
    have hc : prime_candidate 1 (randbits i) = 1 := by
      rcases (by omega : randbits i = 0 ∨ randbits i = 1) with h0 | h0 <;>
        rw [prime_candidate, h0] <;> decide
    rw [hc]
    have hm : miller_rabin 1 (wits i) = false := by
      rw [miller_rabin, if_pos (by norm_num)]
    rw [show ((1:Nat) : Int) = (1:Int) by norm_num, hm]
    exact ih (i + 1)

/-- Witness for C9's amended statement: a concrete all-zero random stream. -/
theorem C9_witness :
    (∀ j : Nat, (fun _ : Nat => 0) j < 2) ∧
    generate_prime 1 (fun _ => 0) (fun _ => []) 7 0 = none :=
  ⟨fun _ => by norm_num,
    C9_generate_prime_unbounded (fun _ => 0) (fun _ => []) 7 0 (fun _ => by norm_num)⟩

/-- Counterexample for C9 as stated: at `bit_length = 1` the sampler has made
no progress after 8 full iterations (and, per `C9_generate_prime_unbounded`,
never will) — there is no bounded-iteration `PrimalityExhaustion` failure in
the code. -/
theorem C9_counterexample :
    generate_prime 1 (fun _ => 0) (fun _ => []) 8 0 = none := by
  decide

/-! ### Miller-Rabin on primes -/

/-- The `n - 1 = 2^r * d` decomposition loop: starting from a positive `d0`,
it returns an exponent increment `s` and an odd positive `e` with
`d0 = 2^s * e`. -/
theorem decompose_spec : ∀ (k : Nat) (d0 : Int), d0.toNat ≤ k → 0 < d0 → ∀ r0 : Nat,
    ∃ (s : Nat) (e : Int), decompose r0 d0 = (r0 + s, e) ∧ d0 = 2 ^ s * e ∧
      e % 2 = 1 ∧ 0 < e := by
  intro k
  induction k with
  | zero => intro d0 h1 h2; omega
  | succ k ih =>
    intro d0 hk h0 r0
    have hfm : d0.fmod 2 = d0 % 2 := Int.fmod_eq_emod _ (by omega)
    have hfd : d0.fdiv 2 = d0 / 2 := Int.fdiv_eq_ediv _ (by omega)
    rw [decompose]
    by_cases hev : d0 % 2 = 0
    · rw [dif_pos ⟨by rw [hfm]; exact hev, h0⟩, hfd]
      obtain ⟨s, e, hde, hval, hodd, hepos⟩ := ih (d0 / 2) (by omega) (by omega) (r0 + 1)
      refine ⟨s + 1, e, ?_, ?_, hodd, hepos⟩
      · simp [hde]
        omega
      · have hhalf : d0 = 2 * (d0 / 2) := by omega
        rw [hhalf, hval, pow_succ]
        ring
    · rw [dif_neg (by rw [hfm]; tauto)]
      exact ⟨0, d0, by norm_num, by norm_num, by omega, h0⟩

/-- Reducing an integer modulo `p` does not change its image in `ZMod p`. -/
theorem intCast_emod_self (p : Nat) (y : Int) :
    (((y % (p : Int)) : Int) : ZMod p) = (y : ZMod p) := by
  rw [Int.emod_def]
  push_cast
  rw [ZMod.natCast_self]
  ring

/-- Integers in `[0, p)` with equal images in `ZMod p` are equal. -/
theorem intCast_inj_of_lt (p : Nat) (u v : Int) (hu0 : 0 ≤ u) (hup : u < (p : Int))
    (hv0 : 0 ≤ v) (hvp : v < (p : Int)) (h : (u : ZMod p) = (v : ZMod p)) : u = v := by
  rw [ZMod.intCast_eq_intCast_iff'] at h
  rwa [Int.emod_eq_of_lt hu0 hup, Int.emod_eq_of_lt hv0 hvp] at h

/-- If some iterated square of `x` equals `n - 1` within the iteration budget,
the inner squaring loop breaks and the round passes. -/
theorem mrInner_reaches (n : Int) (hn : 1 < n) :
    ∀ (k : Nat) (x : Int) (j : Nat), 1 ≤ j → j ≤ k →
      (x ^ (2 ^ j)) % n = n - 1 → mrInner n k x = true := by
  intro k
  induction k with
  | zero => intro x j h1 h2 _; omega
  | succ k ih =>
    intro x j hj1 hjk hx
    have hpm : power_mod x 2 n = x ^ 2 % n := by
      rw [power_mod_eq x 2 n hn (by norm_num)]
      rw [show ((2:Int)).toNat = 2 from rfl]
    rw [mrInner]
    simp only [hpm]
    by_cases hhit : x ^ 2 % n = n - 1
    · rw [if_pos hhit]
    · rw [if_neg hhit]
      have hj2 : 2 ≤ j := by
        rcases Nat.lt_or_ge j 2 with h | h
        · have hj : j = 1 := by omega
          rw [hj] at hx
          norm_num at hx
          exact absurd hx hhit
        · exact h
      apply ih (x ^ 2 % n) (j - 1) (by omega) (by omega)
      have hexp : 2 ^ j = 2 * 2 ^ (j - 1) := by
        conv_lhs => rw [show j = j - 1 + 1 by omega]
        rw [pow_succ]
        ring
      have hstep : ((x ^ 2 % n) ^ (2 ^ (j - 1))) % n = (x ^ (2 ^ j)) % n := by
        calc ((x ^ 2 % n) ^ (2 ^ (j - 1))) % n
            = ((x ^ 2) ^ (2 ^ (j - 1))) % n :=
              Int.ModEq.pow _ (Int.emod_emod_of_dvd _ dvd_rfl)
          _ = (x ^ (2 ^ j)) % n := by rw [← pow_mul, ← hexp]
      rw [hstep, hx]

/-- One Miller-Rabin round can never reject a prime: for `p` prime, odd,
`≥ 5`, with `p - 1 = 2^r * d` (`r ≥ 1`, `d > 0`), every witness
`2 ≤ a ≤ p - 2` passes. -/
theorem mrRound_prime (p : Nat) (hp : p.Prime) (hp5 : 5 ≤ p)
    (d : Int) (r : Nat) (hd0 : 0 < d) (hr : 1 ≤ r)
    (hdecomp : (p : Int) - 1 = 2 ^ r * d)
    (a : Int) (ha2 : 2 ≤ a) (han : a ≤ (p : Int) - 2) :
    mrRound ↑p d r a = true := by
  haveI := Fact.mk hp
  have hp5I : (5 : Int) ≤ ↑p := by exact_mod_cast hp5
  have hpI : (1 : Int) < ↑p := by omega
  have hx0eq : power_mod a d ↑p = a ^ d.toNat % ↑p := power_mod_eq a d ↑p hpI (by omega)
  have hx00 : 0 ≤ a ^ d.toNat % (p : Int) := Int.emod_nonneg _ (by omega)
  have hx0p : a ^ d.toNat % (p : Int) < ↑p := Int.emod_lt_of_pos _ (by omega)
  have hA0 : (a : ZMod p) ≠ 0 := by
    rw [Ne, ZMod.intCast_zmod_eq_zero_iff_dvd]
    intro hdvd
    have := Int.le_of_dvd (by omega) hdvd
    omega
  have hfermat : (a : ZMod p) ^ (p - 1) = 1 := ZMod.pow_card_sub_one_eq_one hA0
  have hcastx0 : ((a ^ d.toNat % (p : Int) : Int) : ZMod p) = (a : ZMod p) ^ d.toNat := by
    rw [intCast_emod_self]
    push_cast
    ring
  have hDn : 2 ^ r * d.toNat = p - 1 := by
    have hI : ((p : Nat) : Int) - 1 = ((2 ^ r * d.toNat : Nat) : Int) := by
      push_cast
      rw [Int.toNat_of_nonneg (by omega : (0:Int) ≤ d)]
      exact hdecomp
    omega
  have hX1 : ((a ^ d.toNat % (p : Int) : Int) : ZMod p) ^ (2 ^ r) = 1 := by
    rw [hcastx0, ← pow_mul, Nat.mul_comm, hDn]
    exact hfermat
  rw [mrRound]
  simp only [hx0eq]
  by_cases hhit : a ^ d.toNat % (p : Int) = 1 ∨ a ^ d.toNat % (p : Int) = ↑p - 1
  · rw [if_pos hhit]
  · rw [if_neg hhit]
    push_neg at hhit
    obtain ⟨hx1, hxn1⟩ := hhit
    have hex : ∃ j, ((a ^ d.toNat % (p : Int) : Int) : ZMod p) ^ (2 ^ j) = 1 := ⟨r, hX1⟩
    obtain ⟨J, hjr, hj, hjmin⟩ : ∃ J, J ≤ r ∧
        ((a ^ d.toNat % (p : Int) : Int) : ZMod p) ^ (2 ^ J) = 1 ∧
        ∀ i < J, ((a ^ d.toNat % (p : Int) : Int) : ZMod p) ^ (2 ^ i) ≠ 1 :=
      ⟨Nat.find hex, Nat.find_min' hex hX1, Nat.find_spec hex,
        fun i hi => Nat.find_min hex hi⟩
    have hcast1 : (((1 : Int)) : ZMod p) = 1 := by push_cast; ring
    have hcastp1 : (((p : Int) - 1 : Int) : ZMod p) = -1 := by
      push_cast
      rw [ZMod.natCast_self]
      ring
    have hj1 : 1 ≤ J := by
      by_contra h
      have h0 : J = 0 := by omega
      rw [h0, pow_zero, pow_one] at hj
      exact hx1 (intCast_inj_of_lt p _ 1 hx00 hx0p (by norm_num) (by omega)
        (by rw [hj, hcast1]))
    have hexp2 : 2 ^ J = 2 ^ (J - 1) * 2 := by
      conv_lhs => rw [show J = J - 1 + 1 by omega]
      rw [pow_succ]
    have hYsq : (((a ^ d.toNat % (p : Int) : Int) : ZMod p) ^ (2 ^ (J - 1))) *
        (((a ^ d.toNat % (p : Int) : Int) : ZMod p) ^ (2 ^ (J - 1))) = 1 := by
      rw [← pow_add]
      rw [show 2 ^ (J - 1) + 2 ^ (J - 1) = 2 ^ (J - 1) * 2 by ring, ← hexp2]
      exact hj
    have hYne1 : ((a ^ d.toNat % (p : Int) : Int) : ZMod p) ^ (2 ^ (J - 1)) ≠ 1 :=
      hjmin (J - 1) (by omega)
    have hY : ((a ^ d.toNat % (p : Int) : Int) : ZMod p) ^ (2 ^ (J - 1)) = -1 :=
      (mul_self_eq_one_iff.mp hYsq).resolve_left hYne1
    have hj2 : 2 ≤ J := by
      by_contra h
      have h1 : J = 1 := by omega
      rw [h1] at hY
      norm_num at hY
      exact hxn1 (intCast_inj_of_lt p _ (↑p - 1) hx00 hx0p (by omega) (by omega)
        (by rw [hcastx0, hY, hcastp1]))
    apply mrInner_reaches ↑p hpI (r - 1) _ (J - 1) (by omega) (by omega)
    apply intCast_inj_of_lt p _ (↑p - 1)
      (Int.emod_nonneg _ (by omega)) (Int.emod_lt_of_pos _ (by omega))
      (by omega) (by omega)
    rw [intCast_emod_self, hcastp1]
    push_cast
    rw [← hcastx0]
    exact hY

/-- C5: Miller-Rabin never rejects a prime — for every prime `n` and every
choice of in-range random witnesses it returns `True`; moreover `n < 2` gives
`False`, even `n > 2` gives `False`, and `n ∈ {2, 3}` gives `True`,
regardless of the witnesses drawn. -/
theorem C5_miller_rabin (p : Nat) (n : Int) (ws ws' : List Int)
    (hp : p.Prime) (hws : ∀ a ∈ ws, 2 ≤ a ∧ a ≤ (p : Int) - 2) :
    miller_rabin ↑p ws = true ∧
    (n < 2 → miller_rabin n ws' = false) ∧
    (2 < n → (2:Int) ∣ n → miller_rabin n ws' = false) ∧
    miller_rabin 2 ws' = true ∧ miller_rabin 3 ws' = true := by
  refine ⟨?_, ?_, ?_, ?_, ?_⟩
  · have hp2 := hp.two_le
    by_cases hsmall : p = 2 ∨ p = 3
    · rcases hsmall with h | h <;> subst h <;>
        rw [miller_rabin, if_neg (by norm_num), if_pos (by norm_num)]
    · push_neg at hsmall
      have hp5 : 5 ≤ p := by
        have h4 : p ≠ 4 := fun h => by rw [h] at hp; exact absurd hp (by decide)
        omega
      obtain ⟨c, hcodd⟩ := hp.odd_of_ne_two (by omega)
      rw [miller_rabin]
      rw [if_neg (by omega)]
      rw [if_neg (by omega)]
      rw [if_neg (by rw [Int.fmod_eq_emod _ (by norm_num)]; omega)]
      obtain ⟨s, e, hde, hval, hodd, hepos⟩ :=
        decompose_spec ((p : Int) - 1).toNat ((p : Int) - 1) le_rfl (by omega) 0
      have hs1 : 1 ≤ s := by
        by_contra h
        have h0 : s = 0 := by omega
        rw [h0, pow_zero, one_mul] at hval
        omega
      rw [hde]
      simp only [Nat.zero_add]
      rw [List.all_eq_true]
      intro a ha
      exact mrRound_prime p hp hp5 e s hepos hs1 hval a (hws a ha).1 (hws a ha).2
  · intro h
    rw [miller_rabin, if_pos h]
  · intro h2 hdvd
    rw [miller_rabin, if_neg (by omega), if_neg (by omega),
      if_pos (by rw [Int.fmod_eq_emod _ (by norm_num)]; omega)]
  · rw [miller_rabin, if_neg (by norm_num), if_pos (by norm_num)]
  · rw [miller_rabin, if_neg (by norm_num), if_pos (by norm_num)]

/-- Witness for C5 at the prime `p = 5` with witness draws `[2, 3]`. -/
theorem C5_witness :
    Nat.Prime 5 ∧ (∀ a ∈ ([2, 3] : List Int), 2 ≤ a ∧ a ≤ ((5 : Nat) : Int) - 2) ∧
    (miller_rabin ((5 : Nat) : Int) [2, 3] = true ∧
    ((0 : Int) < 2 → miller_rabin 0 [] = false) ∧
    (2 < (0 : Int) → (2:Int) ∣ 0 → miller_rabin 0 [] = false) ∧
    miller_rabin 2 [] = true ∧ miller_rabin 3 [] = true) :=
  ⟨by norm_num, by decide,
    C5_miller_rabin 5 0 [2, 3] [] (by norm_num) (by decide)⟩

end Backend
